import Mathlib

/-!
Verification of the incfontdisc font-matching engine.

The definitions below are a shallow embedding of the matching and scoring
core found in `src/src/backend_fontconfig.cpp` (the identical logic is
duplicated in `src/src/backend_dwrite.cpp`).  C++ `std::string` values are
modelled as Lean `String`, `float` scores as `ℚ`, `int` attributes as `ℤ`,
and `std::expected<T, Error>` as `Except Error T`.  `std::tolower` and
`std::isalnum` are modelled in the "C" locale (ASCII).
-/

namespace Incfontdisc


/-- Embeds the character transformation performed by `std::tolower`
applied to an `unsigned char` in the "C" locale: characters `A`..`Z`
map to their lowercase form, every other character is unchanged. -/
def toLowerChar (c : Char) : Char :=
  if 'A' ≤ c ∧ c ≤ 'Z' then Char.ofNat (c.toNat + 32) else c

/-- Embeds `std::isalnum` in the "C" locale: decimal digits and ASCII
letters. -/
def isAlnumChar (c : Char) : Bool :=
  ('0' ≤ c ∧ c ≤ '9') ∨ ('A' ≤ c ∧ c ≤ 'Z') ∨ ('a' ≤ c ∧ c ≤ 'z')

/-- Embeds `to_lower` from `src/src/backend_fontconfig.cpp`: lower-case
every character of the input. -/
def to_lower (s : String) : String :=
  ⟨s.data.map toLowerChar⟩

/-- Embeds `normalize_family` from `src/src/backend_fontconfig.cpp`:
keep only alphanumeric characters, lower-cased. -/
def normalize_family (s : String) : String :=
  ⟨(s.data.filter isAlnumChar).map toLowerChar⟩

/-- Substitution cost used by the dynamic programme in
`levenshtein_distance`: `0` for equal characters, `1` otherwise. -/
def editCost (x y : Char) : Nat :=
  if x = y then 0 else 1

/-- Embeds the inner loop (over `j`) of the two-row dynamic programme in
`levenshtein_distance`: `pj1` is `prev[j-1]`, the list argument holds
`prev[j], prev[j+1], ...`, and `cj1` is `curr[j-1]`.  Each step computes
`curr[j] = min (prev[j]+1) (min (curr[j-1]+1) (prev[j-1]+cost))`. -/
def levRowGo (x : Char) : List Char → Nat → List Nat → Nat → List Nat
  | [], _, _, _ => []
  | _ :: _, _, [], _ => []
  | y :: ys, pj1, pj :: ps, cj1 =>
      let cj := min (pj + 1) (min (cj1 + 1) (pj1 + editCost x y))
      cj :: levRowGo x ys pj ps cj

/-- Embeds one iteration of the outer loop (over `i`) of
`levenshtein_distance`: given the previous row, build the current row,
whose first entry `curr[0]` is `i`. -/
def levRow (x : Char) (b : List Char) (prevRow : List Nat) (i : Nat) : List Nat :=
  match prevRow with
  | [] => [i]
  | p0 :: ps => i :: levRowGo x b p0 ps i

/-- Embeds the outer loop of `levenshtein_distance`: fold the row update
over the characters of `a`, starting from row index `1`. -/
def levRows (b : List Char) : List Char → List Nat → Nat → List Nat
  | [], prevRow, _ => prevRow
  | x :: xs, prevRow, i => levRows b xs (levRow x b prevRow i) (i + 1)

/-- Embeds `levenshtein_distance` from `src/src/backend_fontconfig.cpp`
on lists of characters: early returns for equal and empty inputs, then
the two-row dynamic programme whose initial row is `prev[j] = j` and
whose result is the last entry of the final row. -/
def levD (a b : List Char) : Nat :=
  if a = b then 0
  else if a = [] then b.length
  else if b = [] then a.length
  else (levRows b a (List.range (b.length + 1)) 1).getLastD 0

/-- Embeds `levenshtein_distance` from `src/src/backend_fontconfig.cpp`
on `String`. -/
def levenshtein_distance (a b : String) : Nat :=
  levD a.data b.data

/-- The textbook Levenshtein recurrence, used as the mathematical
specification of the dynamic programme in `levenshtein_distance`. -/
def lev : List Char → List Char → Nat
  | [], ys => ys.length
  | x :: xs, [] => (x :: xs).length
  | x :: xs, y :: ys =>
      min (lev xs (y :: ys) + 1) (min (lev (x :: xs) ys + 1) (lev xs ys + editCost x y))
termination_by a b => a.length + b.length
decreasing_by all_goals simp +arith

/-- A single-character edit (insertion, deletion, or substitution at an
arbitrary position) between two character lists. -/
inductive EditStep : List Char → List Char → Prop
  | del (x : Char) (xs : List Char) : EditStep (x :: xs) xs
  | ins (x : Char) (xs : List Char) : EditStep xs (x :: xs)
  | subst (x y : Char) (xs : List Char) : EditStep (x :: xs) (y :: xs)
  | cons (x : Char) {xs ys : List Char} : EditStep xs ys → EditStep (x :: xs) (x :: ys)

/-- A chain of `n` single-character edits. -/
inductive editSeq : Nat → List Char → List Char → Prop
  | refl (a : List Char) : editSeq 0 a a
  | step {n : Nat} {a b c : List Char} : EditStep a b → editSeq n b c → editSeq (n + 1) a c

/-- The row of Levenshtein values for the list `ap` against all prefixes
of `bdone ++ brest` that strictly extend `bdone`. -/
def specTail (ap : List Char) : List Char → List Char → List Nat
  | _, [] => []
  | bdone, y :: ys => lev ap (bdone ++ [y]) :: specTail ap (bdone ++ [y]) ys

/-- The full dynamic-programming row for `ap`: Levenshtein values of `ap`
against every prefix of `b`. -/
def specRow (ap b : List Char) : List Nat :=
  lev ap [] :: specTail ap [] b

/-- Embeds `family_similarity` from `src/src/backend_fontconfig.cpp`:
normalize both names, return `0` if either normalization is empty, `1`
if they are equal, otherwise `max 0 (1 - min (dist / maxLen) 1)`. -/
def family_similarity (candidate query : String) : ℚ :=
  let norm_candidate := normalize_family candidate
  let norm_query := normalize_family query
  if norm_candidate = "" ∨ norm_query = "" then 0
  else if norm_candidate = norm_query then 1
  else
    let max_len : ℚ := (max norm_candidate.length norm_query.length : ℕ)
    let dist : ℚ := (levenshtein_distance norm_candidate norm_query : ℕ)
    max 0 (1 - min (dist / max_len) 1)

/-- Embeds `ErrorCode` from `src/include/incfontdisc/incfontdisc.hpp`. -/
inductive ErrorCode
  | BackendUnavailable
  | NotImplemented
  | InvalidArgument
  | NoFontsFound
  | SystemError
deriving DecidableEq, Repr

/-- Embeds `Error` from `src/include/incfontdisc/incfontdisc.hpp`. -/
structure Error where
  code : ErrorCode
  message : String
deriving DecidableEq, Repr

/-- Embeds `FontDescriptor` from `src/include/incfontdisc/incfontdisc.hpp`;
the `FontId` member is modelled by its `value` string. -/
structure FontDescriptor where
  id : String
  family : String
  style : String
  weight : ℤ
  stretch : ℤ
  italic : Bool
deriving DecidableEq, Repr

/-- The value-initialized `FontDescriptor{}` (the in-class member
initializers of `src/include/incfontdisc/incfontdisc.hpp`). -/
def defaultDescriptor : FontDescriptor :=
  { id := "", family := "", style := "", weight := 400, stretch := 100, italic := false }

/-- Embeds `FontQuery` from `src/include/incfontdisc/incfontdisc.hpp`. -/
structure FontQuery where
  family : Option String
  style : Option String
  weight : Option ℤ
  stretch : Option ℤ
  italic : Option Bool
deriving DecidableEq, Repr

/-- Embeds `FontMatch` from `src/include/incfontdisc/incfontdisc.hpp`. -/
structure FontMatch where
  font : FontDescriptor
  family_score : ℚ
  face_score : ℚ
deriving DecidableEq, Repr

/-- Embeds `face_score` from `src/src/backend_fontconfig.cpp`: a running
total over the attributes the query constrains, divided by the number of
constrained attributes (`0` if none is constrained). -/
def face_score (font : FontDescriptor) (query : FontQuery) : ℚ :=
  let acc : ℚ × ℕ := (0, 0)
  let acc : ℚ × ℕ :=
    match query.style with
    | some s => (acc.1 + (if to_lower font.style = to_lower s then 1 else 0), acc.2 + 1)
    | none => acc
  let acc : ℚ × ℕ :=
    match query.weight with
    | some w => (acc.1 + (1 - min (((font.weight - w).natAbs : ℚ) / 900) 1), acc.2 + 1)
    | none => acc
  let acc : ℚ × ℕ :=
    match query.stretch with
    | some st =>
        let range : ℚ := if font.stretch ≤ 9 ∧ st ≤ 9 then 8 else 150
        (acc.1 + (1 - min (((font.stretch - st).natAbs : ℚ) / range) 1), acc.2 + 1)
    | none => acc
  let acc : ℚ × ℕ :=
    match query.italic with
    | some it => (acc.1 + (if font.italic = it then 1 else 0), acc.2 + 1)
    | none => acc
  if acc.2 = 0 then 0 else acc.1 / (acc.2 : ℚ)

/-- Embeds the family-resolution loop of `FontconfigBackend::match_fonts`
(`src/src/backend_fontconfig.cpp`): descriptors with an empty family name
are skipped; a case-insensitive equality with the query family stops the
scan with score `1`; otherwise the best (strictly greater) similarity seen
so far is retained together with the normalized family name. -/
def resolve_family_go (qfam : String) :
    List FontDescriptor → String → ℚ → String × ℚ
  | [], bestNorm, bestScore => (bestNorm, bestScore)
  | d :: rest, bestNorm, bestScore =>
      if d.family = "" then resolve_family_go qfam rest bestNorm bestScore
      else if to_lower d.family = to_lower qfam then (normalize_family d.family, 1)
      else
        let score := family_similarity d.family qfam
        if bestScore < score then resolve_family_go qfam rest (normalize_family d.family) score
        else resolve_family_go qfam rest bestNorm bestScore

/-- Family resolution over the whole catalog, starting from the empty
best-family name and score `0`. -/
def resolve_family (catalog : List FontDescriptor) (qfam : String) : String × ℚ :=
  resolve_family_go qfam catalog "" 0

/-- Embeds the `best_family_fonts` filter of
`FontconfigBackend::match_fonts`: the faces whose (non-empty) family name
normalizes to the resolved family's normalized name. -/
def family_fonts (catalog : List FontDescriptor) (bestNorm : String) : List FontDescriptor :=
  catalog.filter fun d => !(d.family == "") && (normalize_family d.family == bestNorm)

/-- Embeds the exact-face test inside `FontconfigBackend::match_fonts`:
every query-constrained attribute must match (style case-insensitively,
weight, stretch and italic by equality). -/
def exact_matches (d : FontDescriptor) (q : FontQuery) : Bool :=
  (q.style.all fun s => to_lower d.style == to_lower s) &&
  (q.weight.all fun w => d.weight == w) &&
  (q.stretch.all fun st => d.stretch == st) &&
  (q.italic.all fun it => d.italic == it)

/-- Embeds `if (!query.style) { query.style = "Regular"; }` from
`FontconfigBackend::match_fonts`. -/
def default_style (q : FontQuery) : FontQuery :=
  if q.style = none then { q with style := some "Regular" } else q

/-- Embeds the fallback defaulting in `FontconfigBackend::match_fonts`:
unset weight becomes `400`, unset stretch `100`, unset italic `false`. -/
def default_attrs (q : FontQuery) : FontQuery :=
  let q := if q.weight = none then { q with weight := some 400 } else q
  let q := if q.stretch = none then { q with stretch := some 100 } else q
  if q.italic = none then { q with italic := some false } else q

/-- Embeds the best-face loop of `FontconfigBackend::match_fonts`:
starting from a value-initialized `FontMatch` carrying the family score
and face score `0`, replace the running result whenever a face scores
strictly higher. -/
def best_face_fold (famScore : ℚ) (q : FontQuery) (fonts : List FontDescriptor) : FontMatch :=
  fonts.foldl
    (fun res d =>
      let score := face_score d q
      if res.face_score < score then
        { font := d, family_score := famScore, face_score := score }
      else res)
    { font := defaultDescriptor, family_score := famScore, face_score := 0 }

/-- Embeds the face-selection part of `FontconfigBackend::match_fonts`
(after family resolution): default the style to "Regular", return the
first exactly-matching face with face score `1`, otherwise default the
remaining attributes and run the best-face loop. -/
def match_faces (fonts : List FontDescriptor) (famScore : ℚ) (query : FontQuery) : FontMatch :=
  let query1 := default_style query
  match fonts.find? (fun d => exact_matches d query1) with
  | some d => { font := d, family_score := famScore, face_score := 1 }
  | none => best_face_fold famScore (default_attrs query1) fonts

/-- Embeds `FontconfigBackend::match_fonts` from
`src/src/backend_fontconfig.cpp` as a pure function of the catalog
snapshot and the query (the fontconfig enumeration is the catalog
argument; `FcInit` is assumed to succeed). -/
def match_fonts (catalog : List FontDescriptor) (query : FontQuery) : Except Error FontMatch :=
  match query.family with
  | none => .error ⟨ErrorCode.InvalidArgument, "FontQuery.family must be set"⟩
  | some qfam =>
      let res := resolve_family catalog qfam
      if res.1 = "" then
        .error ⟨ErrorCode.NoFontsFound, "No fonts found on the system, this should be impossible."⟩
      else
        .ok (match_faces (family_fonts catalog res.1) res.2 query)

/-- Abstract model of the filesystem primitives used by
`read_file_bytes` in `src/src/backend_fontconfig.cpp`:
`std::filesystem::exists`, successful stream opening, the file's bytes
(the stream size), and success of the final `read` call. -/
structure FileSystem where
  exists_file : String → Bool
  open_ok : String → Bool
  contents : String → List ℕ
  read_ok : String → Bool

/-- Embeds `read_file_bytes` from `src/src/backend_fontconfig.cpp`:
`InvalidArgument` if the file does not exist, `SystemError` if the
stream cannot be opened, the size is not positive, or the read fails. -/
def read_file_bytes (fs : FileSystem) (path : String) : Except Error (List ℕ) :=
  if fs.exists_file path = false then
    .error ⟨ErrorCode.InvalidArgument, "Font file does not exist"⟩
  else if fs.open_ok path = false then
    .error ⟨ErrorCode.SystemError, "Failed to open font file"⟩
  else if (fs.contents path).length = 0 then
    .error ⟨ErrorCode.SystemError, "Font file is empty"⟩
  else if fs.read_ok path = false then
    .error ⟨ErrorCode.SystemError, "Failed to read font file"⟩
  else .ok (fs.contents path)

/-- Position of the last `#` in a character list (`std::string::rfind`). -/
def lastHashPos (l : List Char) : Option ℕ :=
  match l.reverse.findIdx? (· == '#') with
  | none => none
  | some k => some (l.length - 1 - k)

/-- Embeds `std::stoi` as used by `parse_font_id`: the surrounding
`try`/`catch` turns any parse failure into `0`. -/
def stoi_or_zero (s : String) : ℤ :=
  (s.toInt?).getD 0

/-- Embeds `parse_font_id` from `src/src/backend_fontconfig.cpp`: split
the id at the last `#` into a path and a face index (the whole id and
index `0` when no `#` is present). -/
def parse_font_id (id : String) : String × ℤ :=
  match lastHashPos id.data with
  | none => (id, 0)
  | some pos => (⟨id.data.take pos⟩, stoi_or_zero ⟨id.data.drop (pos + 1)⟩)

/-- Embeds `FontconfigBackend::load_font_data` from
`src/src/backend_fontconfig.cpp` (`FcInit` assumed to succeed; the
parsed face index is discarded by the implementation). -/
def load_font_data (fs : FileSystem) (id : String) : Except Error (List ℕ) :=
  let parsed := parse_font_id id
  if parsed.1 = "" then .error ⟨ErrorCode.InvalidArgument, "FontId is empty"⟩
  else read_file_bytes fs parsed.1

/-- Comparison definition for the refinement claim C6, following the
spec's words (§4.3): normalize both inputs; if either normalized string
is empty return `0.0`; if the normalized strings are equal return
`1.0`; otherwise return `1` minus the edit distance of the normalized
forms divided by the longer normalized length, clamped so the result is
never negative. -/
def family_similarity_spec (candidate query : String) : ℚ :=
  let nc := normalize_family candidate
  let nq := normalize_family query
  if nc = "" ∨ nq = "" then 0
  else if nc = nq then 1
  else max 0 (1 - (levenshtein_distance nc nq : ℚ) / ((max nc.length nq.length : ℕ) : ℚ))

/-- Style contribution of the spec-worded face scorer (C5): present only
when the query constrains the style; `1.0` iff the style strings match
case-insensitively. -/
def style_contrib (f : FontDescriptor) (q : FontQuery) : List ℚ :=
  match q.style with
  | some s => [if to_lower f.style = to_lower s then 1 else 0]
  | none => []

/-- Weight contribution of the spec-worded face scorer (C5):
`1 - min (|font.weight - query.weight| / 900) 1`. -/
def weight_contrib (f : FontDescriptor) (q : FontQuery) : List ℚ :=
  match q.weight with
  | some w => [1 - min (((f.weight - w).natAbs : ℚ) / 900) 1]
  | none => []

/-- Stretch contribution of the spec-worded face scorer (C5):
`1 - min (|font.stretch - query.stretch| / range) 1`, with `range = 8`
when both stretch values are at most `9` and `150` otherwise. -/
def stretch_contrib (f : FontDescriptor) (q : FontQuery) : List ℚ :=
  match q.stretch with
  | some st =>
      [1 - min (((f.stretch - st).natAbs : ℚ) / (if f.stretch ≤ 9 ∧ st ≤ 9 then 8 else 150)) 1]
  | none => []

/-- Italic contribution of the spec-worded face scorer (C5): `1.0` iff
the italic booleans are equal. -/
def italic_contrib (f : FontDescriptor) (q : FontQuery) : List ℚ :=
  match q.italic with
  | some it => [if f.italic = it then 1 else 0]
  | none => []

/-- Comparison definition for the refinement claim C5, following the
spec's words (§4.4): collect one contribution per query-constrained
attribute; return `0.0` when nothing is constrained, otherwise the
unweighted average of the contributions. -/
def face_score_spec (f : FontDescriptor) (q : FontQuery) : ℚ :=
  let contribs := style_contrib f q ++ weight_contrib f q ++ stretch_contrib f q ++ italic_contrib f q
  if contribs = [] then 0 else contribs.sum / (contribs.length : ℚ)

theorem lev_nil_left (b : List Char) : lev [] b = b.length := by
  simp [lev]

theorem lev_nil_right (a : List Char) : lev a [] = a.length := by
  cases a <;> simp [lev]

theorem lev_cons_cons (x y : Char) (xs ys : List Char) :
    lev (x :: xs) (y :: ys) =
      min (lev xs (y :: ys) + 1) (min (lev (x :: xs) ys + 1) (lev xs ys + editCost x y)) := by
  simp [lev]

theorem editCost_self (x : Char) : editCost x x = 0 := by
  simp [editCost]

theorem editCost_le_one (x y : Char) : editCost x y ≤ 1 := by
  unfold editCost
  split <;> omega

theorem lev_self (a : List Char) : lev a a = 0 := by
  induction a with
  | nil => simp [lev]
  | cons x xs ih =>
      rw [lev_cons_cons, editCost_self]
      omega

theorem editSeq_cons (x : Char) {n : Nat} {u v : List Char} (h : editSeq n u v) :
    editSeq n (x :: u) (x :: v) := by
  induction h with
  | refl a => exact editSeq.refl _
  | step s _ ih => exact editSeq.step (EditStep.cons x s) ih

theorem editSeq_trans {m n : Nat} {a b c : List Char}
    (h₁ : editSeq m a b) (h₂ : editSeq n b c) : editSeq (m + n) a c := by
  induction h₁ with
  | refl a => simpa using h₂
  | step s _ ih =>
      rw [Nat.add_right_comm]
      exact editSeq.step s (ih h₂)

theorem editSeq_snoc {n : Nat} {a b c : List Char}
    (h : editSeq n a b) (s : EditStep b c) : editSeq (n + 1) a c := by
  induction h with
  | refl a => exact editSeq.step s (editSeq.refl _)
  | step s' _ ih => exact editSeq.step s' (ih s)

theorem EditStep.symm {a b : List Char} (h : EditStep a b) : EditStep b a := by
  induction h with
  | del x xs => exact EditStep.ins x xs
  | ins x xs => exact EditStep.del x xs
  | subst x y xs => exact EditStep.subst y x xs
  | cons x _ ih => exact EditStep.cons x ih

theorem editSeq_symm {n : Nat} {a b : List Char} (h : editSeq n a b) :
    editSeq n b a := by
  induction h with
  | refl a => exact editSeq.refl _
  | step s _ ih => exact editSeq_snoc ih s.symm

theorem editSeq_nil_left (b : List Char) : editSeq b.length [] b := by
  induction b with
  | nil => exact editSeq.refl _
  | cons y ys ih =>
      exact editSeq.step (EditStep.ins y []) (editSeq_cons y ih)

theorem editSeq_nil_right (a : List Char) : editSeq a.length a [] := by
  induction a with
  | nil => exact editSeq.refl _
  | cons x xs ih => exact editSeq.step (EditStep.del x xs) ih

/-- The dynamic programme's value is realised by an edit script:
`lev a b` single edits transform `a` into `b`. -/
theorem editSeq_lev : (a b : List Char) → editSeq (lev a b) a b
  | [], b => by rw [lev_nil_left]; exact editSeq_nil_left b
  | x :: xs, [] => by rw [lev_nil_right]; exact editSeq_nil_right _
  | x :: xs, y :: ys => by
      rw [lev_cons_cons]
      rcases Nat.le_total (lev xs (y :: ys) + 1)
          (min (lev (x :: xs) ys + 1) (lev xs ys + editCost x y)) with h | h
      · rw [Nat.min_eq_left h]
        exact editSeq.step (EditStep.del x xs) (editSeq_lev xs (y :: ys))
      · rw [Nat.min_eq_right h]
        rcases Nat.le_total (lev (x :: xs) ys + 1) (lev xs ys + editCost x y) with h' | h'
        · rw [Nat.min_eq_left h']
          exact editSeq.step (EditStep.ins y (x :: xs)) (editSeq_cons y (editSeq_lev (x :: xs) ys))
        · rw [Nat.min_eq_right h']
          by_cases hxy : x = y
          · subst hxy
            rw [editCost_self, Nat.add_zero]
            exact editSeq_cons x (editSeq_lev xs ys)
          · rw [show editCost x y = 1 from if_neg hxy]
            exact editSeq.step (EditStep.subst x y xs) (editSeq_cons y (editSeq_lev xs ys))
termination_by a b => a.length + b.length
decreasing_by all_goals simp +arith

theorem ins_right (a : List Char) (y : Char) (b : List Char) :
    lev a (y :: b) ≤ lev a b + 1 := by
  cases a with
  | nil => simp [lev_nil_left]
  | cons x xs =>
      rw [lev_cons_cons]
      omega

theorem del_left (x : Char) (xs b : List Char) :
    lev (x :: xs) b ≤ lev xs b + 1 := by
  cases b with
  | nil => simp [lev_nil_right]
  | cons y ys =>
      rw [lev_cons_cons]
      omega

theorem del_right (a : List Char) (y : Char) (ys : List Char) :
    lev a ys ≤ lev a (y :: ys) + 1 := by
  induction a with
  | nil =>
      simp only [lev_nil_left, List.length_cons]
      omega
  | cons x xs ih =>
      rw [lev_cons_cons]
      have h1 := del_left x xs ys
      have h2 := editCost_le_one x y
      omega

theorem subst_right (a : List Char) (y z : Char) (ys : List Char) :
    lev a (z :: ys) ≤ lev a (y :: ys) + 1 := by
  induction a with
  | nil => simp [lev_nil_left]
  | cons x xs ih =>
      rw [lev_cons_cons, lev_cons_cons]
      have h1 := editCost_le_one x z
      have h2 := editCost_le_one x y
      omega

theorem cons_right {us vs : List Char} (w : Char)
    (H : ∀ a, lev a vs ≤ lev a us + 1) :
    ∀ a, lev a (w :: vs) ≤ lev a (w :: us) + 1 := by
  intro a
  induction a with
  | nil =>
      have := H []
      simp only [lev_nil_left, List.length_cons] at this ⊢
      omega
  | cons x xs ih =>
      rw [lev_cons_cons, lev_cons_cons]
      have h1 := H (x :: xs)
      have h2 := H xs
      omega

/-- One edit on the second argument changes the Levenshtein value by at
most one, relative to an arbitrary first argument. -/
theorem step_right {b c : List Char} (s : EditStep b c) :
    ∀ a, lev a c ≤ lev a b + 1 := by
  induction s with
  | del y ys => exact fun a => del_right a y ys
  | ins y ys => exact fun a => ins_right a y ys
  | subst y z ys => exact fun a => subst_right a y z ys
  | cons w _ ih => exact cons_right w ih

theorem lev_le_add_of_editSeq {n : Nat} {b c : List Char}
    (h : editSeq n b c) : ∀ a, lev a c ≤ lev a b + n := by
  induction h with
  | refl b => exact fun a => Nat.le_refl _
  | step s _ ih =>
      intro a
      have h1 := ih a
      have h2 := step_right s a
      omega

theorem lev_le_of_editSeq {n : Nat} {a b : List Char}
    (h : editSeq n a b) : lev a b ≤ n := by
  have := lev_le_add_of_editSeq h a
  rw [lev_self] at this
  omega

/-- Triangle inequality for the Levenshtein recurrence. -/
theorem lev_triangle (a b c : List Char) :
    lev a c ≤ lev a b + lev b c := by
  exact lev_le_add_of_editSeq (editSeq_lev b c) a

/-- Symmetry of the Levenshtein recurrence. -/
theorem lev_symm (a b : List Char) : lev a b = lev b a := by
  have h1 : lev a b ≤ lev b a := lev_le_of_editSeq (editSeq_symm (editSeq_lev b a))
  have h2 : lev b a ≤ lev a b := lev_le_of_editSeq (editSeq_symm (editSeq_lev a b))
  omega

theorem EditStep_snoc_del (x : Char) : ∀ u : List Char, EditStep (u ++ [x]) u := by
  intro u
  induction u with
  | nil => exact EditStep.del x []
  | cons w ws ih => exact EditStep.cons w ih

theorem EditStep_snoc_ins (x : Char) : ∀ u : List Char, EditStep u (u ++ [x]) := by
  intro u
  induction u with
  | nil => exact EditStep.ins x []
  | cons w ws ih => exact EditStep.cons w ih

theorem EditStep_snoc_subst (x y : Char) : ∀ u : List Char,
    EditStep (u ++ [x]) (u ++ [y]) := by
  intro u
  induction u with
  | nil => exact EditStep.subst x y []
  | cons w ws ih => exact EditStep.cons w ih

theorem EditStep_snoc {u v : List Char} (w : Char) (h : EditStep u v) :
    EditStep (u ++ [w]) (v ++ [w]) := by
  induction h with
  | del x xs => exact EditStep.del x (xs ++ [w])
  | ins x xs => exact EditStep.ins x (xs ++ [w])
  | subst x y xs => exact EditStep.subst x y (xs ++ [w])
  | cons x _ ih => exact EditStep.cons x ih

theorem EditStep_reverse {u v : List Char} (h : EditStep u v) :
    EditStep u.reverse v.reverse := by
  induction h with
  | del x xs => simpa using EditStep_snoc_del x xs.reverse
  | ins x xs => simpa using EditStep_snoc_ins x xs.reverse
  | subst x y xs => simpa using EditStep_snoc_subst x y xs.reverse
  | cons x _ ih => simpa using EditStep_snoc x ih

theorem editSeq_reverse {n : Nat} {u v : List Char} (h : editSeq n u v) :
    editSeq n u.reverse v.reverse := by
  induction h with
  | refl a => exact editSeq.refl _
  | step s _ ih => exact editSeq.step (EditStep_reverse s) ih

/-- The Levenshtein recurrence is invariant under simultaneous reversal
of both arguments. -/
theorem lev_reverse (a b : List Char) : lev a.reverse b.reverse = lev a b := by
  have h1 : lev a.reverse b.reverse ≤ lev a b :=
    lev_le_of_editSeq (editSeq_reverse (editSeq_lev a b))
  have h2 : lev a b ≤ lev a.reverse b.reverse := by
    have := lev_le_of_editSeq (editSeq_reverse (editSeq_lev a.reverse b.reverse))
    simpa using this
  omega

/-- The Levenshtein recurrence read at the tails of the two lists: the
form in which the prefix-indexed dynamic programme applies it. -/
theorem lev_snoc_snoc (u v : List Char) (x y : Char) :
    lev (u ++ [x]) (v ++ [y]) =
      min (lev u (v ++ [y]) + 1)
        (min (lev (u ++ [x]) v + 1) (lev u v + editCost x y)) := by
  have e1 : lev (u ++ [x]) (v ++ [y]) = lev (x :: u.reverse) (y :: v.reverse) := by
    rw [← lev_reverse (u ++ [x]) (v ++ [y])]
    simp
  have e2 : lev u.reverse (y :: v.reverse) = lev u (v ++ [y]) := by
    rw [← lev_reverse u (v ++ [y])]
    simp
  have e3 : lev (x :: u.reverse) v.reverse = lev (u ++ [x]) v := by
    rw [← lev_reverse (u ++ [x]) v]
    simp
  have e4 : lev u.reverse v.reverse = lev u v := lev_reverse u v
  rw [e1, lev_cons_cons, e2, e3, e4]

theorem levRowGo_spec (ap : List Char) (x : Char) :
    ∀ (brest bdone : List Char),
      levRowGo x brest (lev ap bdone) (specTail ap bdone brest) (lev (ap ++ [x]) bdone)
        = specTail (ap ++ [x]) bdone brest := by
  intro brest
  induction brest with
  | nil => intro bdone; simp [levRowGo, specTail]
  | cons y ys ih =>
      intro bdone
      show levRowGo x (y :: ys) (lev ap bdone)
          (lev ap (bdone ++ [y]) :: specTail ap (bdone ++ [y]) ys)
          (lev (ap ++ [x]) bdone) = _
      rw [levRowGo]
      have hcj : min (lev ap (bdone ++ [y]) + 1)
          (min ((lev (ap ++ [x]) bdone) + 1) (lev ap bdone + editCost x y))
          = lev (ap ++ [x]) (bdone ++ [y]) := (lev_snoc_snoc ap bdone x y).symm
      simp only [hcj]
      rw [ih (bdone ++ [y])]
      rfl

theorem levRow_spec (ap b : List Char) (x : Char) :
    levRow x b (specRow ap b) (ap.length + 1) = specRow (ap ++ [x]) b := by
  have hlen : ap.length + 1 = lev (ap ++ [x]) [] := by
    rw [lev_nil_right]
    simp
  rw [specRow, levRow, hlen, levRowGo_spec ap x b []]
  rfl

theorem levRows_spec (b : List Char) :
    ∀ (arest ap : List Char),
      levRows b arest (specRow ap b) (ap.length + 1) = specRow (ap ++ arest) b := by
  intro arest
  induction arest with
  | nil => intro ap; simp [levRows]
  | cons x xs ih =>
      intro ap
      rw [levRows, levRow_spec ap b x]
      have := ih (ap ++ [x])
      simp only [List.length_append, List.length_cons, List.length_nil] at this
      rw [show ap.length + 1 + 1 = ap.length + (0 + 1) + 1 by omega] at this
      rw [this]
      simp

theorem specTail_nil_left : ∀ (brest bdone : List Char),
    specTail [] bdone brest = (List.range brest.length).map (fun k => bdone.length + k + 1) := by
  intro brest
  induction brest with
  | nil => intro bdone; simp [specTail]
  | cons y ys ih =>
      intro bdone
      rw [specTail, ih (bdone ++ [y])]
      simp only [List.length_cons, List.range_succ_eq_map, List.map_cons, List.map_map,
        lev_nil_left, List.length_append, List.length_nil, List.cons.injEq]
      refine ⟨by simp, ?_⟩
      apply List.map_congr_left
      intro k _
      simp [Function.comp]
      omega

theorem range_eq_specRow (b : List Char) :
    List.range (b.length + 1) = specRow [] b := by
  rw [List.range_succ_eq_map, specRow, lev_nil_left, specTail_nil_left]
  simp only [List.length_nil, List.cons.injEq]
  refine ⟨trivial, ?_⟩
  apply List.map_congr_left
  intro k _
  omega

theorem specTail_getLastD (ap : List Char) :
    ∀ (brest bdone : List Char) (d : Nat), brest ≠ [] →
      (specTail ap bdone brest).getLastD d = lev ap (bdone ++ brest) := by
  intro brest
  induction brest with
  | nil => intro bdone d h; exact absurd rfl h
  | cons y ys ih =>
      intro bdone d _
      rw [specTail]
      cases hys : ys with
      | nil => simp [specTail]
      | cons z zs =>
          rw [List.getLastD_cons]
          rw [← hys]
          have := ih (bdone ++ [y]) (lev ap (bdone ++ [y])) (by rw [hys]; simp)
          rw [List.append_assoc] at this
          simpa using this

theorem specRow_getLastD (ap b : List Char) :
    (specRow ap b).getLastD 0 = lev ap b := by
  cases b with
  | nil => simp [specRow, specTail, lev_nil_right]
  | cons y ys =>
      rw [specRow, List.getLastD_cons]
      have := specTail_getLastD ap (y :: ys) [] (lev ap []) (by simp)
      simpa using this

/-- Correctness of the embedded two-row dynamic programme: it computes
the Levenshtein recurrence. -/
theorem levD_eq_lev (a b : List Char) : levD a b = lev a b := by
  rw [levD]
  by_cases hab : a = b
  · subst hab
    simp [lev_self]
  · rw [if_neg hab]
    by_cases ha : a = []
    · subst ha
      simp [lev_nil_left]
    · rw [if_neg ha]
      by_cases hb : b = []
      · subst hb
        simp [lev_nil_right]
      · rw [if_neg hb]
        rw [range_eq_specRow]
        have := levRows_spec b a []
        simp only [List.length_nil, List.nil_append] at this
        rw [this, specRow_getLastD]

theorem levenshtein_eq_lev (a b : String) :
    levenshtein_distance a b = lev a.data b.data := by
  rw [levenshtein_distance, levD_eq_lev]

/-- C1: with the query family unset, `match_fonts` fails with
`InvalidArgument` for every catalog — the result does not depend on the
catalog, so the failure occurs before any scan of it; with the family
set and an empty catalog, `match_fonts` fails with `NoFontsFound`. -/
theorem match_fonts_invalid_family_and_empty_catalog :
    (∀ (catalog : List FontDescriptor) (query : FontQuery), query.family = none →
      match_fonts catalog query =
        .error ⟨ErrorCode.InvalidArgument, "FontQuery.family must be set"⟩) ∧
    (∀ (query : FontQuery) (qfam : String), query.family = some qfam →
      match_fonts [] query =
        .error ⟨ErrorCode.NoFontsFound,
          "No fonts found on the system, this should be impossible."⟩) := by
  constructor
  · intro catalog query h
    simp [match_fonts, h]
  · intro query qfam h
    simp [match_fonts, h, resolve_family, resolve_family_go]

theorem match_fonts_invalid_family_and_empty_catalog_witness :
    match_fonts [⟨"f#0", "Arial", "Regular", 400, 100, false⟩]
        ⟨none, none, none, none, none⟩ =
      .error ⟨ErrorCode.InvalidArgument, "FontQuery.family must be set"⟩ ∧
    match_fonts [] ⟨some "Arial", none, none, none, none⟩ =
      .error ⟨ErrorCode.NoFontsFound,
        "No fonts found on the system, this should be impossible."⟩ :=
  ⟨match_fonts_invalid_family_and_empty_catalog.1 _ _ rfl,
   match_fonts_invalid_family_and_empty_catalog.2 ⟨some "Arial", none, none, none, none⟩ _ rfl⟩

/-- C8: the embedded `levenshtein_distance` is a metric on strings:
distance of a string to itself is `0`, it is symmetric, it satisfies the
triangle inequality, and the distance to or from the empty string is the
length of the other string. -/
theorem levenshtein_distance_metric :
    (∀ a : String, levenshtein_distance a a = 0) ∧
    (∀ a b : String, levenshtein_distance a b = levenshtein_distance b a) ∧
    (∀ a b c : String,
      levenshtein_distance a b ≤ levenshtein_distance a c + levenshtein_distance c b) ∧
    (∀ a : String, levenshtein_distance a "" = a.length ∧
      levenshtein_distance "" a = a.length) := by
  refine ⟨fun a => ?_, fun a b => ?_, fun a b c => ?_, fun a => ⟨?_, ?_⟩⟩
  · rw [levenshtein_eq_lev, lev_self]
  · rw [levenshtein_eq_lev, levenshtein_eq_lev, lev_symm]
  · rw [levenshtein_eq_lev, levenshtein_eq_lev, levenshtein_eq_lev]
    exact lev_triangle a.data c.data b.data
  · rw [levenshtein_eq_lev]
    show lev a.data [] = a.length
    rw [lev_nil_right, String.length]
  · rw [levenshtein_eq_lev]
    show lev [] a.data = a.length
    rw [lev_nil_left, String.length]

/-- C6: `family_similarity` implements the specified similarity: `0`
when a normalized input is empty, `1` when the normalized inputs are
equal, otherwise `1` minus the normalized-edit-distance ratio clamped
to never be negative; and the result always lies in `[0, 1]`. -/
theorem family_similarity_refines_spec (candidate query : String) :
    family_similarity candidate query = family_similarity_spec candidate query ∧
    0 ≤ family_similarity candidate query ∧
    family_similarity candidate query ≤ 1 := by
  simp only [family_similarity, family_similarity_spec]
  split_ifs with h1 h2
  · exact ⟨rfl, le_refl 0, by norm_num⟩
  · exact ⟨rfl, by norm_num, le_refl 1⟩
  · set D : ℚ := (levenshtein_distance (normalize_family candidate) (normalize_family query) : ℚ)
      with hD
    set M : ℚ := ((max (normalize_family candidate).length (normalize_family query).length : ℕ) : ℚ)
      with hM
    have hDpos : 0 ≤ D := by rw [hD]; exact Nat.cast_nonneg _
    have hMpos : 0 ≤ M := by rw [hM]; exact Nat.cast_nonneg _
    have hr : 0 ≤ D / M := div_nonneg hDpos hMpos
    have hmin1 : min (D / M) 1 ≤ 1 := min_le_right _ _
    have hmin0 : (0 : ℚ) ≤ min (D / M) 1 := le_min hr zero_le_one
    refine ⟨?_, le_max_left _ _, max_le (by norm_num) (by linarith)⟩
    rcases le_total (D / M) 1 with hle | hgt
    · rw [min_eq_left hle]
    · rw [min_eq_right hgt]
      have : max 0 (1 - D / M) = 0 := max_eq_left (by linarith)
      rw [this]
      norm_num

theorem indicator_bounds (p : Prop) [Decidable p] :
    0 ≤ (if p then (1 : ℚ) else 0) ∧ (if p then (1 : ℚ) else 0) ≤ 1 := by
  split <;> norm_num

theorem falloff_bounds (d r : ℚ) (hd : 0 ≤ d) (hr : 0 < r) :
    0 ≤ 1 - min (d / r) 1 ∧ 1 - min (d / r) 1 ≤ 1 := by
  have h1 : min (d / r) 1 ≤ 1 := min_le_right _ _
  have h0 : (0 : ℚ) ≤ min (d / r) 1 := le_min (div_nonneg hd hr.le) zero_le_one
  constructor <;> linarith

theorem style_contrib_bounds (f : FontDescriptor) (q : FontQuery) :
    ∀ x ∈ style_contrib f q, 0 ≤ x ∧ x ≤ 1 := by
  intro x hx
  cases hq : q.style <;> simp [style_contrib, hq] at hx
  subst hx
  exact indicator_bounds _

theorem weight_contrib_bounds (f : FontDescriptor) (q : FontQuery) :
    ∀ x ∈ weight_contrib f q, 0 ≤ x ∧ x ≤ 1 := by
  intro x hx
  cases hq : q.weight <;> simp [weight_contrib, hq] at hx
  subst hx
  exact falloff_bounds _ _ (Nat.cast_nonneg _) (by norm_num)

theorem stretch_contrib_bounds (f : FontDescriptor) (q : FontQuery) :
    ∀ x ∈ stretch_contrib f q, 0 ≤ x ∧ x ≤ 1 := by
  intro x hx
  cases hq : q.stretch <;> simp [stretch_contrib, hq] at hx
  subst hx
  exact falloff_bounds _ _ (Nat.cast_nonneg _) (by split <;> norm_num)

theorem italic_contrib_bounds (f : FontDescriptor) (q : FontQuery) :
    ∀ x ∈ italic_contrib f q, 0 ≤ x ∧ x ≤ 1 := by
  intro x hx
  cases hq : q.italic <;> simp [italic_contrib, hq] at hx
  subst hx
  exact indicator_bounds _

theorem face_score_spec_bounds (f : FontDescriptor) (q : FontQuery) :
    0 ≤ face_score_spec f q ∧ face_score_spec f q ≤ 1 := by
  rw [face_score_spec]
  set contribs :=
    style_contrib f q ++ weight_contrib f q ++ stretch_contrib f q ++ italic_contrib f q
    with hcon
  have hmem : ∀ x ∈ contribs, 0 ≤ x ∧ x ≤ 1 := by
    intro x hx
    rw [hcon] at hx
    simp only [List.mem_append] at hx
    rcases hx with ((h | h) | h) | h
    · exact style_contrib_bounds f q x h
    · exact weight_contrib_bounds f q x h
    · exact stretch_contrib_bounds f q x h
    · exact italic_contrib_bounds f q x h
  split_ifs with hnil
  · exact ⟨le_refl 0, by norm_num⟩
  · have hlen : 0 < (contribs.length : ℚ) := by
      have := List.length_pos.mpr hnil
      exact_mod_cast this
    have hsum0 : 0 ≤ contribs.sum := List.sum_nonneg fun x hx => (hmem x hx).1
    have hsum1 : contribs.sum ≤ (contribs.length : ℚ) := by
      have := List.sum_le_card_nsmul contribs 1 fun x hx => (hmem x hx).2
      simpa using this
    exact ⟨div_nonneg hsum0 hlen.le, (div_le_one hlen).mpr hsum1⟩

/-- C5: `face_score` implements the specified scorer — the average of the
per-attribute contributions over exactly the attributes the query
constrains, `0.0` when nothing is constrained — and its result always
lies in `[0, 1]`. -/
theorem face_score_refines_spec (f : FontDescriptor) (q : FontQuery) :
    face_score f q = face_score_spec f q ∧
    0 ≤ face_score f q ∧ face_score f q ≤ 1 := by
  have heq : face_score f q = face_score_spec f q := by
    obtain ⟨qf, qs, qw, qst, qi⟩ := q
    cases qs <;> cases qw <;> cases qst <;> cases qi <;>
      simp [face_score, face_score_spec, style_contrib, weight_contrib,
        stretch_contrib, italic_contrib] <;>
      ring_nf
  refine ⟨heq, ?_, ?_⟩
  · rw [heq]; exact (face_score_spec_bounds f q).1
  · rw [heq]; exact (face_score_spec_bounds f q).2

theorem family_similarity_arial_ariel : family_similarity "Arial" "Ariel" = 4 / 5 := by
  have hn1 : normalize_family "Arial" = "arial" := by decide
  have hn2 : normalize_family "Ariel" = "ariel" := by decide
  have hd : levenshtein_distance "arial" "ariel" = 1 := by decide
  have hlen : (max ("arial" : String).length ("ariel" : String).length : ℕ) = 5 := by decide
  simp only [family_similarity, hn1, hn2, hd, hlen]
  rw [if_neg (by decide), if_neg (by decide)]
  norm_num [min_def, max_def]

/-- C7 counterexample: the claimed arithmetic does not hold on the code —
the edit distance between the normalized forms of `"Arial"` and
`"Ariel"` is `1` (a single substitution), not `2`, so the similarity is
not `0.6`. -/
theorem family_similarity_typo_counterexample :
    levenshtein_distance (normalize_family "Arial") (normalize_family "Ariel") ≠ 2 ∧
    family_similarity "Arial" "Ariel" ≠ 3 / 5 := by
  constructor
  · decide
  · rw [family_similarity_arial_ariel]
    norm_num

/-- C7 (amended): the typo scenario — `family_similarity "Arial" "Ariel"`
is `0.8`, via edit distance `1` over maximal normalized length `5`, and a
query with family `"Ariel"` against a catalog containing only the
family `"Arial"` resolves to that family with `family_score = 0.8`. -/
theorem family_similarity_typo_scenario :
    levenshtein_distance (normalize_family "Arial") (normalize_family "Ariel") = 1 ∧
    max (normalize_family "Arial").length (normalize_family "Ariel").length = 5 ∧
    family_similarity "Arial" "Ariel" = 4 / 5 ∧
    match_fonts [⟨"arial.ttf#0", "Arial", "Regular", 400, 100, false⟩]
        ⟨some "Ariel", none, none, none, none⟩ =
      .ok ⟨⟨"arial.ttf#0", "Arial", "Regular", 400, 100, false⟩, 4 / 5, 1⟩ := by
  have hn1 : normalize_family "Arial" = "arial" := by decide
  have hn2 : normalize_family "Ariel" = "ariel" := by decide
  have hsim := family_similarity_arial_ariel
  refine ⟨by decide, by decide, hsim, ?_⟩
  have hres : resolve_family [⟨"arial.ttf#0", "Arial", "Regular", 400, 100, false⟩] "Ariel"
      = ("arial", 4 / 5) := by
    simp only [resolve_family, resolve_family_go]
    rw [if_neg (by decide), if_neg (by decide)]
    simp only [hsim, hn1]
    rw [if_pos (by norm_num : (0 : ℚ) < 4 / 5)]
  have hff : family_fonts [⟨"arial.ttf#0", "Arial", "Regular", 400, 100, false⟩] "arial"
      = [⟨"arial.ttf#0", "Arial", "Regular", 400, 100, false⟩] := by decide
  have hds : default_style ⟨some "Ariel", none, none, none, none⟩
      = ⟨some "Ariel", some "Regular", none, none, none⟩ := by decide
  have hfind : List.find?
      (fun d => exact_matches d ⟨some "Ariel", some "Regular", none, none, none⟩)
      [⟨"arial.ttf#0", "Arial", "Regular", 400, 100, false⟩]
      = some ⟨"arial.ttf#0", "Arial", "Regular", 400, 100, false⟩ := by decide
  have hmf : match_faces [⟨"arial.ttf#0", "Arial", "Regular", 400, 100, false⟩] (4 / 5)
      ⟨some "Ariel", none, none, none, none⟩
      = ⟨⟨"arial.ttf#0", "Arial", "Regular", 400, 100, false⟩, 4 / 5, 1⟩ := by
    rw [match_faces, hds, hfind]
  simp only [match_fonts]
  rw [hres]
  rw [if_neg (by decide)]
  rw [hff, hmf]

theorem resolve_family_go_all_zero (qfam : String) (catalog : List FontDescriptor)
    (h : ∀ e ∈ catalog, to_lower e.family ≠ to_lower qfam ∧
      family_similarity e.family qfam = 0) :
    resolve_family_go qfam catalog "" 0 = ("", 0) := by
  induction catalog with
  | nil => rfl
  | cons d rest ih =>
      have hd := h d (by simp)
      have hrest := ih fun e he => h e (by simp [he])
      by_cases hfam : d.family = ""
      · rw [resolve_family_go, if_pos hfam]
        exact hrest
      · simp only [resolve_family_go, if_neg hfam, if_neg hd.1, hd.2]
        rw [if_neg (lt_irrefl 0)]
        exact hrest

theorem match_fonts_all_zero (catalog : List FontDescriptor) (query : FontQuery)
    (qfam : String) (hq : query.family = some qfam)
    (h : ∀ e ∈ catalog, to_lower e.family ≠ to_lower qfam ∧
      family_similarity e.family qfam = 0) :
    match_fonts catalog query =
      .error ⟨ErrorCode.NoFontsFound,
        "No fonts found on the system, this should be impossible."⟩ := by
  simp only [match_fonts, hq]
  rw [resolve_family, resolve_family_go_all_zero qfam catalog h]
  rfl

theorem family_similarity_cd_ab : family_similarity "cd" "ab" = 0 := by
  have hn1 : normalize_family "cd" = "cd" := by decide
  have hn2 : normalize_family "ab" = "ab" := by decide
  have hd : levenshtein_distance "cd" "ab" = 2 := by decide
  have hlen : (max ("cd" : String).length ("ab" : String).length : ℕ) = 2 := by decide
  simp only [family_similarity, hn1, hn2, hd, hlen]
  rw [if_neg (by decide), if_neg (by decide)]
  norm_num [min_def, max_def]

/-- C10: whenever no catalog family equals the query family
case-insensitively and every family's similarity to the query family is
`0`, the family-resolution scan selects no family and `match_fonts`
reports `NoFontsFound` — also on non-empty catalogs (witnessed below on
a one-element catalog). -/
theorem match_fonts_no_fonts_found_nonempty (catalog : List FontDescriptor)
    (query : FontQuery) (qfam : String) (hq : query.family = some qfam)
    (h : ∀ e ∈ catalog, to_lower e.family ≠ to_lower qfam ∧
      family_similarity e.family qfam = 0) :
    match_fonts catalog query =
      .error ⟨ErrorCode.NoFontsFound,
        "No fonts found on the system, this should be impossible."⟩ :=
  match_fonts_all_zero catalog query qfam hq h

theorem match_fonts_no_fonts_found_nonempty_witness :
    match_fonts [⟨"f#0", "cd", "Regular", 400, 100, false⟩]
        ⟨some "ab", none, none, none, none⟩ =
      .error ⟨ErrorCode.NoFontsFound,
        "No fonts found on the system, this should be impossible."⟩ := by
  apply match_fonts_no_fonts_found_nonempty _ _ "ab" rfl
  intro e he
  rw [List.mem_singleton] at he
  subst he
  exact ⟨by decide, family_similarity_cd_ab⟩

theorem resolve_family_go_exact (qfam : String) (d : FontDescriptor)
    (post : List FontDescriptor) (hne : d.family ≠ "")
    (hex : to_lower d.family = to_lower qfam) :
    ∀ (pre : List FontDescriptor) (bn : String) (bs : ℚ),
      (∀ e ∈ pre, e.family = "" ∨ to_lower e.family ≠ to_lower qfam) →
      resolve_family_go qfam (pre ++ d :: post) bn bs = (normalize_family d.family, 1) := by
  intro pre
  induction pre with
  | nil =>
      intro bn bs _
      rw [List.nil_append, resolve_family_go, if_neg hne, if_pos hex]
  | cons e pre ih =>
      intro bn bs hpre
      rw [List.cons_append]
      by_cases hef : e.family = ""
      · rw [resolve_family_go, if_pos hef]
        exact ih _ _ fun x hx => hpre x (by simp [hx])
      · have hee : to_lower e.family ≠ to_lower qfam := by
          rcases hpre e (by simp) with h | h
          · exact absurd h hef
          · exact h
        simp only [resolve_family_go, if_neg hef, if_neg hee]
        by_cases hlt : bs < family_similarity e.family qfam
        · rw [if_pos hlt]
          exact ih _ _ fun x hx => hpre x (by simp [hx])
        · rw [if_neg hlt]
          exact ih _ _ fun x hx => hpre x (by simp [hx])

theorem resolve_family_go_keep (qfam : String) :
    ∀ (l : List FontDescriptor) (bn : String) (bs : ℚ),
      (∀ e ∈ l, e.family = "" ∨ (to_lower e.family ≠ to_lower qfam ∧
        family_similarity e.family qfam ≤ bs)) →
      resolve_family_go qfam l bn bs = (bn, bs) := by
  intro l
  induction l with
  | nil => intro bn bs _; rfl
  | cons e rest ih =>
      intro bn bs h
      by_cases hef : e.family = ""
      · rw [resolve_family_go, if_pos hef]
        exact ih _ _ fun x hx => h x (by simp [hx])
      · obtain ⟨hee, hle⟩ := (h e (by simp)).resolve_left hef
        simp only [resolve_family_go, if_neg hef, if_neg hee]
        rw [if_neg (not_lt.mpr hle)]
        exact ih _ _ fun x hx => h x (by simp [hx])

theorem resolve_family_go_best (qfam : String) (best : FontDescriptor)
    (post : List FontDescriptor) (hbne : best.family ≠ "")
    (hbnex : to_lower best.family ≠ to_lower qfam)
    (hpost : ∀ e ∈ post, e.family = "" ∨ (to_lower e.family ≠ to_lower qfam ∧
      family_similarity e.family qfam ≤ family_similarity best.family qfam)) :
    ∀ (pre : List FontDescriptor) (bn : String) (bs : ℚ),
      (∀ e ∈ pre, e.family = "" ∨ (to_lower e.family ≠ to_lower qfam ∧
        family_similarity e.family qfam < family_similarity best.family qfam)) →
      bs < family_similarity best.family qfam →
      resolve_family_go qfam (pre ++ best :: post) bn bs
        = (normalize_family best.family, family_similarity best.family qfam) := by
  intro pre
  induction pre with
  | nil =>
      intro bn bs _ hbs
      rw [List.nil_append]
      simp only [resolve_family_go, if_neg hbne, if_neg hbnex]
      rw [if_pos hbs]
      exact resolve_family_go_keep qfam post _ _ hpost
  | cons e pre ih =>
      intro bn bs hpre hbs
      rw [List.cons_append]
      by_cases hef : e.family = ""
      · rw [resolve_family_go, if_pos hef]
        exact ih _ _ (fun x hx => hpre x (by simp [hx])) hbs
      · obtain ⟨hee, hlt⟩ := (hpre e (by simp)).resolve_left hef
        simp only [resolve_family_go, if_neg hef, if_neg hee]
        by_cases hup : bs < family_similarity e.family qfam
        · rw [if_pos hup]
          exact ih _ _ (fun x hx => hpre x (by simp [hx])) hlt
        · rw [if_neg hup]
          exact ih _ _ (fun x hx => hpre x (by simp [hx])) hbs

theorem family_similarity_pos_norm {c q : String}
    (h : 0 < family_similarity c q) : normalize_family c ≠ "" := by
  intro hc
  rw [family_similarity] at h
  simp only [hc, eq_self_iff_true, true_or, if_true] at h
  exact lt_irrefl 0 h

theorem best_face_fold_family_score (famScore : ℚ) (q : FontQuery)
    (fonts : List FontDescriptor) :
    (best_face_fold famScore q fonts).family_score = famScore := by
  rw [best_face_fold]
  suffices h : ∀ (l : List FontDescriptor) (res : FontMatch),
      res.family_score = famScore →
      (l.foldl (fun res d =>
        let score := face_score d q
        if res.face_score < score then
          { font := d, family_score := famScore, face_score := score }
        else res) res).family_score = famScore by
    exact h fonts _ rfl
  intro l
  induction l with
  | nil => intro res hres; exact hres
  | cons d rest ih =>
      intro res hres
      rw [List.foldl_cons]
      by_cases hlt : res.face_score < face_score d q
      · exact ih _ (by simp [hlt])
      · exact ih _ (by simp [hlt, hres])

theorem match_faces_family_score (fonts : List FontDescriptor) (famScore : ℚ)
    (query : FontQuery) :
    (match_faces fonts famScore query).family_score = famScore := by
  rw [match_faces]
  cases hf : fonts.find? fun d => exact_matches d (default_style query) with
  | some d => simp [hf]
  | none => simp [hf, best_face_fold_family_score]

/-- C2 (amended): in family resolution, the scan stops at the first
descriptor (in enumeration order) whose non-empty family name equals the
query family case-insensitively, yielding family score `1`; if no such
family exists, the resolved family is the first-seen family attaining
the strictly highest positive `family_similarity`, that similarity is
the resolved score and becomes the returned `family_score` (if instead
every similarity is `0`, no family is resolved — see the
counterexample). -/
theorem resolve_family_first_exact_or_best :
    (∀ (qfam : String) (d : FontDescriptor) (pre post : List FontDescriptor),
      d.family ≠ "" → to_lower d.family = to_lower qfam →
      (∀ e ∈ pre, e.family = "" ∨ to_lower e.family ≠ to_lower qfam) →
      resolve_family (pre ++ d :: post) qfam = (normalize_family d.family, 1)) ∧
    (∀ (qfam : String) (best : FontDescriptor) (pre post : List FontDescriptor),
      best.family ≠ "" → to_lower best.family ≠ to_lower qfam →
      0 < family_similarity best.family qfam →
      (∀ e ∈ post, e.family = "" ∨ (to_lower e.family ≠ to_lower qfam ∧
        family_similarity e.family qfam ≤ family_similarity best.family qfam)) →
      (∀ e ∈ pre, e.family = "" ∨ (to_lower e.family ≠ to_lower qfam ∧
        family_similarity e.family qfam < family_similarity best.family qfam)) →
      resolve_family (pre ++ best :: post) qfam
        = (normalize_family best.family, family_similarity best.family qfam)) ∧
    (∀ (query : FontQuery) (qfam : String) (best : FontDescriptor)
        (pre post : List FontDescriptor),
      query.family = some qfam →
      best.family ≠ "" → to_lower best.family ≠ to_lower qfam →
      0 < family_similarity best.family qfam →
      (∀ e ∈ post, e.family = "" ∨ (to_lower e.family ≠ to_lower qfam ∧
        family_similarity e.family qfam ≤ family_similarity best.family qfam)) →
      (∀ e ∈ pre, e.family = "" ∨ (to_lower e.family ≠ to_lower qfam ∧
        family_similarity e.family qfam < family_similarity best.family qfam)) →
      ∃ m, match_fonts (pre ++ best :: post) query = .ok m ∧
        m.family_score = family_similarity best.family qfam) := by
  refine ⟨?_, ?_, ?_⟩
  · intro qfam d pre post hne hex hpre
    rw [resolve_family]
    exact resolve_family_go_exact qfam d post hne hex pre "" 0 hpre
  · intro qfam best pre post hbne hbnex hpos hpost hpre
    rw [resolve_family]
    exact resolve_family_go_best qfam best post hbne hbnex hpost pre "" 0 hpre hpos
  · intro query qfam best pre post hq hbne hbnex hpos hpost hpre
    have hres : resolve_family (pre ++ best :: post) qfam
        = (normalize_family best.family, family_similarity best.family qfam) := by
      rw [resolve_family]
      exact resolve_family_go_best qfam best post hbne hbnex hpost pre "" 0 hpre hpos
    simp only [match_fonts, hq]
    rw [hres]
    rw [if_neg (family_similarity_pos_norm hpos)]
    exact ⟨_, rfl, match_faces_family_score _ _ _⟩

/-- C2 counterexample: with catalog family `"cd"` and query family
`"ab"` no family name matches case-insensitively, so the claim as stated
says the resolution scan resolves the first-seen family attaining the
highest similarity (`"cd"`, the only one) and returns its similarity as
`family_score`; instead, because that similarity is `0`, the scan keeps
the empty sentinel family and `match_fonts` fails with `NoFontsFound`,
returning no `family_score` at all. -/
theorem resolve_family_zero_similarity_counterexample :
    to_lower ("cd" : String) ≠ to_lower ("ab" : String) ∧
    family_similarity "cd" "ab" = 0 ∧
    resolve_family [⟨"f#0", "cd", "Regular", 400, 100, false⟩] "ab"
      ≠ (normalize_family "cd", family_similarity "cd" "ab") ∧
    match_fonts [⟨"f#0", "cd", "Regular", 400, 100, false⟩]
        ⟨some "ab", none, none, none, none⟩ =
      .error ⟨ErrorCode.NoFontsFound,
        "No fonts found on the system, this should be impossible."⟩ := by
  have hz : ∀ e ∈ [(⟨"f#0", "cd", "Regular", 400, 100, false⟩ : FontDescriptor)],
      to_lower e.family ≠ to_lower "ab" ∧ family_similarity e.family "ab" = 0 := by
    intro e he
    rw [List.mem_singleton] at he
    subst he
    exact ⟨by decide, family_similarity_cd_ab⟩
  refine ⟨by decide, family_similarity_cd_ab, ?_, ?_⟩
  · rw [resolve_family, resolve_family_go_all_zero "ab" _ hz, family_similarity_cd_ab]
    intro hcontra
    have : ("" : String) = normalize_family "cd" := congrArg Prod.fst hcontra
    rw [show normalize_family "cd" = "cd" from by decide] at this
    exact absurd this (by decide)
  · exact match_fonts_all_zero _ _ "ab" rfl hz

theorem resolve_family_first_exact_or_best_witness :
    resolve_family
        [⟨"f#0", "Zetafont", "Regular", 400, 100, false⟩,
         ⟨"f#1", "Arial", "Regular", 400, 100, false⟩] "arial"
      = (normalize_family "Arial", 1) ∧
    resolve_family [⟨"f#2", "Arial", "Regular", 400, 100, false⟩] "Ariel"
      = (normalize_family "Arial", family_similarity "Arial" "Ariel") ∧
    (∃ m, match_fonts [⟨"f#2", "Arial", "Regular", 400, 100, false⟩]
        ⟨some "Ariel", none, none, none, none⟩ = .ok m ∧
      m.family_score = family_similarity "Arial" "Ariel") := by
  have hpos : 0 < family_similarity "Arial" "Ariel" := by
    rw [family_similarity_arial_ariel]; norm_num
  have hpre0 : ∀ e ∈ [(⟨"f#0", "Zetafont", "Regular", 400, 100, false⟩ : FontDescriptor)],
      e.family = "" ∨ to_lower e.family ≠ to_lower "arial" := by
    intro e he
    rw [List.mem_singleton] at he
    subst he
    exact Or.inr (by decide)
  have hnil : ∀ e ∈ ([] : List FontDescriptor), e.family = "" ∨
      (to_lower e.family ≠ to_lower "Ariel" ∧
        family_similarity e.family "Ariel" ≤ family_similarity "Arial" "Ariel") := by
    intro e he
    exact absurd he (List.not_mem_nil e)
  have hnil' : ∀ e ∈ ([] : List FontDescriptor), e.family = "" ∨
      (to_lower e.family ≠ to_lower "Ariel" ∧
        family_similarity e.family "Ariel" < family_similarity "Arial" "Ariel") := by
    intro e he
    exact absurd he (List.not_mem_nil e)
  refine ⟨?_, ?_, ?_⟩
  · exact resolve_family_first_exact_or_best.1 "arial"
      ⟨"f#1", "Arial", "Regular", 400, 100, false⟩
      [⟨"f#0", "Zetafont", "Regular", 400, 100, false⟩] [] (by decide) (by decide) hpre0
  · exact resolve_family_first_exact_or_best.2.1 "Ariel"
      ⟨"f#2", "Arial", "Regular", 400, 100, false⟩ [] [] (by decide) (by decide)
      hpos hnil hnil'
  · exact resolve_family_first_exact_or_best.2.2
      ⟨some "Ariel", none, none, none, none⟩ "Ariel"
      ⟨"f#2", "Arial", "Regular", 400, 100, false⟩ [] [] rfl (by decide) (by decide)
      hpos hnil hnil'

theorem find_first {α : Type} (p : α → Bool) (f : α) (post : List α) :
    ∀ pre : List α, (∀ e ∈ pre, p e = false) → p f = true →
      (pre ++ f :: post).find? p = some f := by
  intro pre
  induction pre with
  | nil =>
      intro _ hf
      rw [List.nil_append, List.find?_cons_of_pos _ hf]
  | cons e pre ih =>
      intro hpre hf
      rw [List.cons_append, List.find?_cons_of_neg]
      · exact ih (fun x hx => hpre x (by simp [hx])) hf
      · simp [hpre e (by simp)]

theorem default_style_idem (q : FontQuery) :
    default_style (default_style q) = default_style q := by
  rw [default_style, default_style]
  by_cases h : q.style = none
  · rw [if_pos h, if_neg (by simp)]
  · rw [if_neg h, if_neg h]

theorem match_faces_default_style (fonts : List FontDescriptor) (s : ℚ) (q : FontQuery) :
    match_faces fonts s (default_style q) = match_faces fonts s q := by
  rw [match_faces, match_faces, default_style_idem]

/-- C3: an unset query style is treated as "Regular" for the whole face
pass — `match_fonts` behaves exactly as if the caller had set
`style = "Regular"` (the caller's query itself is a value and is never
mutated); and within the resolved family's faces, the first face
(enumeration order) on which every query-constrained attribute matches
exactly is returned immediately with `face_score = 1`. -/
theorem match_fonts_exact_face :
    (∀ (catalog : List FontDescriptor) (query : FontQuery), query.style = none →
      match_fonts catalog query
        = match_fonts catalog { query with style := some "Regular" }) ∧
    (∀ (catalog : List FontDescriptor) (query : FontQuery) (qfam bnorm : String)
        (bscore : ℚ) (pre post : List FontDescriptor) (f : FontDescriptor),
      query.family = some qfam →
      resolve_family catalog qfam = (bnorm, bscore) →
      bnorm ≠ "" →
      family_fonts catalog bnorm = pre ++ f :: post →
      (∀ e ∈ pre, exact_matches e (default_style query) = false) →
      exact_matches f (default_style query) = true →
      match_fonts catalog query = .ok ⟨f, bscore, 1⟩) := by
  constructor
  · intro catalog query h
    have hq' : ({ query with style := some "Regular" } : FontQuery).family = query.family := rfl
    cases hq : query.family with
    | none => simp only [match_fonts, hq', hq]
    | some qfam =>
        simp only [match_fonts, hq', hq]
        have hds : ({ query with style := some "Regular" } : FontQuery)
            = default_style query := by
          rw [default_style, if_pos h]
        rw [hq] at hds
        rw [hds, match_faces_default_style]
  · intro catalog query qfam bnorm bscore pre post f hq hres hbn hff hpre hf
    simp only [match_fonts, hq]
    rw [hres]
    rw [if_neg hbn]
    simp only [match_faces]
    rw [hff, find_first _ f post pre hpre hf]

theorem match_fonts_exact_face_witness :
    (match_fonts
        [⟨"a.ttf#0", "Arial", "Bold", 700, 100, false⟩,
         ⟨"a.ttf#1", "Arial", "Regular", 400, 100, false⟩]
        ⟨some "arial", none, none, none, none⟩
      = match_fonts
        [⟨"a.ttf#0", "Arial", "Bold", 700, 100, false⟩,
         ⟨"a.ttf#1", "Arial", "Regular", 400, 100, false⟩]
        ⟨some "arial", some "Regular", none, none, none⟩) ∧
    match_fonts
        [⟨"a.ttf#0", "Arial", "Bold", 700, 100, false⟩,
         ⟨"a.ttf#1", "Arial", "Regular", 400, 100, false⟩]
        ⟨some "arial", none, none, none, none⟩
      = .ok ⟨⟨"a.ttf#1", "Arial", "Regular", 400, 100, false⟩, 1, 1⟩ := by
  constructor
  · exact match_fonts_exact_face.1 _ ⟨some "arial", none, none, none, none⟩ rfl
  · refine match_fonts_exact_face.2 _ ⟨some "arial", none, none, none, none⟩
      "arial" "arial" 1 [⟨"a.ttf#0", "Arial", "Bold", 700, 100, false⟩] []
      ⟨"a.ttf#1", "Arial", "Regular", 400, 100, false⟩ rfl ?_ (by decide) ?_ ?_ ?_
    · decide
    · decide
    · intro e he
      rw [List.mem_singleton] at he
      subst he
      decide
    · decide

theorem face_fold_keep (famScore : ℚ) (q : FontQuery) :
    ∀ (l : List FontDescriptor) (res : FontMatch),
      (∀ e ∈ l, face_score e q ≤ res.face_score) →
      l.foldl (fun res d =>
        let score := face_score d q
        if res.face_score < score then
          { font := d, family_score := famScore, face_score := score }
        else res) res = res := by
  intro l
  induction l with
  | nil => intro res _; rfl
  | cons d rest ih =>
      intro res h
      rw [List.foldl_cons]
      show List.foldl _
        (if res.face_score < face_score d q then
          { font := d, family_score := famScore, face_score := face_score d q }
        else res) rest = res
      rw [if_neg (not_lt.mpr (h d (by simp)))]
      exact ih res fun e he => h e (by simp [he])

theorem face_fold_best (famScore : ℚ) (q : FontQuery) (best : FontDescriptor)
    (post : List FontDescriptor)
    (hpost : ∀ e ∈ post, face_score e q ≤ face_score best q) :
    ∀ (pre : List FontDescriptor) (res : FontMatch),
      (∀ e ∈ pre, face_score e q < face_score best q) →
      res.face_score < face_score best q →
      (pre ++ best :: post).foldl (fun res d =>
        let score := face_score d q
        if res.face_score < score then
          { font := d, family_score := famScore, face_score := score }
        else res) res
        = { font := best, family_score := famScore, face_score := face_score best q } := by
  intro pre
  induction pre with
  | nil =>
      intro res _ hres
      rw [List.nil_append, List.foldl_cons]
      show List.foldl _
        (if res.face_score < face_score best q then
          { font := best, family_score := famScore, face_score := face_score best q }
        else res) post = _
      rw [if_pos hres]
      exact face_fold_keep famScore q post _ hpost
  | cons e pre ih =>
      intro res hpre hres
      rw [List.cons_append, List.foldl_cons]
      have he := hpre e (by simp)
      show List.foldl _
        (if res.face_score < face_score e q then
          { font := e, family_score := famScore, face_score := face_score e q }
        else res) (pre ++ best :: post) = _
      by_cases hlt : res.face_score < face_score e q
      · rw [if_pos hlt]
        exact ih _ (fun x hx => hpre x (by simp [hx])) he
      · rw [if_neg hlt]
        exact ih _ (fun x hx => hpre x (by simp [hx])) hres

theorem best_face_fold_picks_best (famScore : ℚ) (q : FontQuery)
    (best : FontDescriptor) (pre post : List FontDescriptor)
    (hpos : 0 < face_score best q)
    (hpre : ∀ e ∈ pre, face_score e q < face_score best q)
    (hpost : ∀ e ∈ post, face_score e q ≤ face_score best q) :
    best_face_fold famScore q (pre ++ best :: post)
      = { font := best, family_score := famScore, face_score := face_score best q } := by
  rw [best_face_fold]
  exact face_fold_best famScore q best post hpost pre _ hpre hpos

/-- C4 (amended): when no exact face match exists, any unset weight,
stretch and italic are defaulted to `400`, `100` and `false` (family and
style are untouched at this step), `face_score` is computed for every
face of the resolved family, and — provided the best face's score is
positive — `match_fonts` returns the strictly highest-scoring face
(ties keep the first-seen face) with the resolved `family_score` and
that `face_score`.  (When every face scores `0`, the fold instead keeps
its value-initialized starting descriptor — see the counterexample.) -/
theorem match_fonts_fallback_best_face :
    (∀ q : FontQuery,
      (default_attrs q).weight = some (q.weight.getD 400) ∧
      (default_attrs q).stretch = some (q.stretch.getD 100) ∧
      (default_attrs q).italic = some (q.italic.getD false) ∧
      (default_attrs q).family = q.family ∧
      (default_attrs q).style = q.style) ∧
    (∀ (catalog : List FontDescriptor) (query : FontQuery) (qfam bnorm : String)
        (bscore : ℚ) (pre post : List FontDescriptor) (best : FontDescriptor),
      query.family = some qfam →
      resolve_family catalog qfam = (bnorm, bscore) →
      bnorm ≠ "" →
      family_fonts catalog bnorm = pre ++ best :: post →
      (family_fonts catalog bnorm).find?
        (fun d => exact_matches d (default_style query)) = none →
      0 < face_score best (default_attrs (default_style query)) →
      (∀ e ∈ pre, face_score e (default_attrs (default_style query))
        < face_score best (default_attrs (default_style query))) →
      (∀ e ∈ post, face_score e (default_attrs (default_style query))
        ≤ face_score best (default_attrs (default_style query))) →
      match_fonts catalog query =
        .ok ⟨best, bscore, face_score best (default_attrs (default_style query))⟩) := by
  constructor
  · intro q
    rcases q with ⟨qf, qs, qw, qst, qi⟩
    cases qw <;> cases qst <;> cases qi <;> simp [default_attrs]
  · intro catalog query qfam bnorm bscore pre post best hq hres hbn hff hfind hpos hpre hpost
    simp only [match_fonts, hq]
    rw [hres]
    rw [if_neg hbn]
    simp only [match_faces]
    rw [hfind, hff]
    rw [best_face_fold_picks_best bscore _ best pre post hpos hpre hpost]

theorem face_score_all_zero_example :
    face_score ⟨"f#0", "Aa", "X", 1000, 300, true⟩
      ⟨some "Aa", some "Y", some 100, some 100, some false⟩ = 0 := by
  simp only [face_score,
    show to_lower "X" = "x" from by decide,
    show to_lower "Y" = "y" from by decide,
    show ((1000 : ℤ) - 100).natAbs = 900 from by decide,
    show ((300 : ℤ) - 100).natAbs = 200 from by decide]
  rw [if_neg (by decide : ¬ ("x" : String) = "y"),
    if_neg (by decide : ¬ ((300 : ℤ) ≤ 9 ∧ (100 : ℤ) ≤ 9)),
    if_neg (by decide : ¬ (true = false))]
  norm_num [min_def]

/-- C4 counterexample: when every face of the resolved family scores
`0`, the best-face loop never replaces its value-initialized starting
`FontMatch`, so `match_fonts` returns the default-constructed
descriptor (empty id, family and style) instead of the strictly
highest-scoring face of the resolved family — here the family's only
face, which the claim says must be returned. -/
theorem match_fonts_fallback_counterexample :
    match_fonts [⟨"f#0", "Aa", "X", 1000, 300, true⟩]
        ⟨some "Aa", some "Y", some 100, some 100, some false⟩ =
      .ok ⟨defaultDescriptor, 1, 0⟩ ∧
    defaultDescriptor ∉ [(⟨"f#0", "Aa", "X", 1000, 300, true⟩ : FontDescriptor)] := by
  constructor
  · have hres : resolve_family [⟨"f#0", "Aa", "X", 1000, 300, true⟩] "Aa"
        = ("aa", 1) := by decide
    have hff : family_fonts [⟨"f#0", "Aa", "X", 1000, 300, true⟩] "aa"
        = [⟨"f#0", "Aa", "X", 1000, 300, true⟩] := by decide
    have hds : default_style ⟨some "Aa", some "Y", some 100, some 100, some false⟩
        = ⟨some "Aa", some "Y", some 100, some 100, some false⟩ := by decide
    have hfind : List.find?
        (fun d => exact_matches d ⟨some "Aa", some "Y", some 100, some 100, some false⟩)
        [⟨"f#0", "Aa", "X", 1000, 300, true⟩] = none := by decide
    have hda : default_attrs ⟨some "Aa", some "Y", some 100, some 100, some false⟩
        = ⟨some "Aa", some "Y", some 100, some 100, some false⟩ := by decide
    have hfold : best_face_fold 1 ⟨some "Aa", some "Y", some 100, some 100, some false⟩
        [⟨"f#0", "Aa", "X", 1000, 300, true⟩] = ⟨defaultDescriptor, 1, 0⟩ := by
      rw [best_face_fold, List.foldl_cons, List.foldl_nil]
      show (if (0 : ℚ) < face_score ⟨"f#0", "Aa", "X", 1000, 300, true⟩
          ⟨some "Aa", some "Y", some 100, some 100, some false⟩ then _ else _) = _
      rw [face_score_all_zero_example, if_neg (lt_irrefl (0 : ℚ))]
    simp only [match_fonts]
    rw [hres]
    rw [if_neg (by decide : ¬ ("aa" : String) = "")]
    simp only [match_faces]
    rw [hds, hff]
    simp only [hfind]
    rw [hda, hfold]
  · decide

theorem face_score_regular_weight700 :
    face_score ⟨"a.ttf#0", "Arial", "Regular", 400, 100, false⟩
      ⟨some "arial", some "Regular", some 700, some 100, some false⟩ = 11 / 12 := by
  simp only [face_score,
    show ((400 : ℤ) - 700).natAbs = 300 from by decide,
    show ((100 : ℤ) - 100).natAbs = 0 from by decide]
  norm_num [min_def]

theorem face_score_bold_weight700 :
    face_score ⟨"a.ttf#1", "Arial", "Bold", 700, 100, false⟩
      ⟨some "arial", some "Regular", some 700, some 100, some false⟩ = 3 / 4 := by
  simp only [face_score,
    show to_lower "Bold" = "bold" from by decide,
    show to_lower "Regular" = "regular" from by decide,
    show ((700 : ℤ) - 700).natAbs = 0 from by decide,
    show ((100 : ℤ) - 100).natAbs = 0 from by decide]
  rw [if_neg (by decide : ¬ ("bold" : String) = "regular")]
  norm_num [min_def]

theorem match_fonts_fallback_best_face_witness :
    match_fonts
        [⟨"a.ttf#0", "Arial", "Regular", 400, 100, false⟩,
         ⟨"a.ttf#1", "Arial", "Bold", 700, 100, false⟩]
        ⟨some "arial", none, some 700, none, none⟩
      = .ok ⟨⟨"a.ttf#0", "Arial", "Regular", 400, 100, false⟩, 1, 11 / 12⟩ := by
  have hda : default_attrs (default_style ⟨some "arial", none, some 700, none, none⟩)
      = ⟨some "arial", some "Regular", some 700, some 100, some false⟩ := by decide
  have h := match_fonts_fallback_best_face.2
    [⟨"a.ttf#0", "Arial", "Regular", 400, 100, false⟩,
     ⟨"a.ttf#1", "Arial", "Bold", 700, 100, false⟩]
    ⟨some "arial", none, some 700, none, none⟩ "arial" "arial" 1
    [] [⟨"a.ttf#1", "Arial", "Bold", 700, 100, false⟩]
    ⟨"a.ttf#0", "Arial", "Regular", 400, 100, false⟩
    rfl (by decide) (by decide) (by decide) (by decide)
    (by rw [hda, face_score_regular_weight700]; norm_num)
    (fun e he => absurd he (List.not_mem_nil e))
    (by
      intro e he
      rw [List.mem_singleton] at he
      subst he
      rw [hda, face_score_regular_weight700, face_score_bold_weight700]
      norm_num)
  rw [hda, face_score_regular_weight700] at h
  exact h

/-- C9 counterexample: a well-formed `FontId` referencing a file that
does not exist — the claim classifies a missing file as a system error
(and invalid-argument as reserved for malformed or missing ids), but
`read_file_bytes` returns `InvalidArgument` for it. -/
theorem load_font_data_missing_file_counterexample :
    (parse_font_id "font.ttf#0").1 = "font.ttf" ∧
    load_font_data ⟨fun _ => false, fun _ => true, fun _ => [], fun _ => true⟩
        "font.ttf#0" =
      .error ⟨ErrorCode.InvalidArgument, "Font file does not exist"⟩ := by
  exact ⟨by decide, rfl⟩

/-- C9 (amended): `load_font_data` fails with `InvalidArgument` exactly
when the parsed path is empty (missing or malformed id) or the
referenced file does not exist, and fails with `SystemError` exactly
when the path is non-empty and the file exists but cannot be opened, is
empty, or cannot be read. -/
theorem load_font_data_error_characterization (fs : FileSystem) (id : String) :
    ((∃ m, load_font_data fs id = .error ⟨ErrorCode.InvalidArgument, m⟩) ↔
      ((parse_font_id id).1 = "" ∨ fs.exists_file (parse_font_id id).1 = false)) ∧
    ((∃ m, load_font_data fs id = .error ⟨ErrorCode.SystemError, m⟩) ↔
      ((parse_font_id id).1 ≠ "" ∧ fs.exists_file (parse_font_id id).1 = true ∧
        (fs.open_ok (parse_font_id id).1 = false ∨
         (fs.contents (parse_font_id id).1).length = 0 ∨
         fs.read_ok (parse_font_id id).1 = false))) := by
  simp only [load_font_data, read_file_bytes]
  split_ifs with h1 h2 h3 h4 h5 <;> simp_all

end Incfontdisc

